import Mathlib

/-!
A verification development for the pull-request review script
`.github/scripts/pr_review.py` of the `drupal-template` repository.

Strings are modelled as `List Char` (the character sequence of a Python
`str`), Python integers as `Int`, Python dictionaries as insertion-ordered
association lists with dict-style insertion, and fallible operations as
`Option`.
-/

/-! ## Small Python string utilities -/

/-- The whitespace characters stripped by Python's `str.strip()`. -/
def isPySpace (c : Char) : Bool :=
  c = ' ' || c = '\t' || c = '\n' || c = '\x0d' || c = '\x0b' || c = '\x0c'

/-- Python `s.strip()`: drop leading and trailing whitespace. -/
def pyStrip (s : List Char) : List Char :=
  ((s.dropWhile isPySpace).reverse.dropWhile isPySpace).reverse

/-- Python `s.split(sep)` for a single-character separator: every occurrence
of `sep` splits, and the empty string splits to `[""]`. -/
def pySplit (sep : Char) : List Char → List (List Char)
  | [] => [[]]
  | c :: rest =>
    if c = sep then [] :: pySplit sep rest
    else
      match pySplit sep rest with
      | [] => [[c]]
      | l :: ls => (c :: l) :: ls

/-- Decimal value of a digit character. -/
def digitVal (c : Char) : Nat := c.toNat - 48

/-- Python `int(s)` on a string of decimal digits. -/
def digitsToNat (ds : List Char) : Nat :=
  ds.foldl (fun a c => 10 * a + digitVal c) 0

/-- The decimal digit character for `n < 10`. -/
def digitChar10 : Nat → Char
  | 0 => '0' | 1 => '1' | 2 => '2' | 3 => '3' | 4 => '4'
  | 5 => '5' | 6 => '6' | 7 => '7' | 8 => '8' | _ => '9'

/-- Decimal rendering with a structural fuel argument (the fuel is ample
whenever `n ≤ fuel`). -/
def natDigitsAux : Nat → Nat → List Char
  | 0, n => [digitChar10 n]
  | fuel + 1, n =>
    if n < 10 then [digitChar10 n]
    else natDigitsAux fuel (n / 10) ++ [digitChar10 (n % 10)]

/-- Decimal rendering of a natural number, as Python `str(n)`. -/
def natDigits (n : Nat) : List Char := natDigitsAux n n

/-- Decimal rendering of an integer, as Python `str(n)`. -/
def intStr (n : Int) : List Char :=
  if n < 0 then '-' :: natDigits n.natAbs else natDigits n.natAbs

/-! ## Python dictionaries as insertion-ordered association lists -/

/-- Python `d[k] = v`: replace in place if the key exists, else append. -/
def dictInsert {α β : Type} [DecidableEq α] : List (α × β) → α → β → List (α × β)
  | [], k, v => [(k, v)]
  | (k', v') :: rest, k, v =>
    if k' = k then (k, v) :: rest else (k', v') :: dictInsert rest k v

/-- Python `d.keys()` (in insertion order). -/
def keysOf {α β : Type} (m : List (α × β)) : List α := m.map Prod.fst

/-- Python `d[k]` for a key known to be present (`0`-default total model). -/
def dictGet (m : List (Int × Int)) (k : Int) : Int :=
  match m.find? (fun p => p.1 = k) with
  | some p => p.2
  | none => 0

/-! ## Hunk-header regex

`calculate_line_positions` recognises hunk headers with
`re.search(r'\@\@ \-\d+,?\d* \+(\d+),?(\d*)', line)` and reads the first
capture group.  The pattern's character classes (`\d`, `,`, ` `) are
pairwise disjoint, so greedy matching never backtracks and the search is
the leftmost position where the pattern matches, with the first capture
group being the maximal digit run after the `+`. -/

/-- Match the part of the hunk-header regex after the literal `@@ -`:
`\d+,?\d* \+(\d+),?(\d*)`, returning capture group 1 (`int` of the digits
after `+`). -/
def headerTail (rest : List Char) : Option Nat :=
  let p1 := rest.span Char.isDigit
  if p1.1.isEmpty then none
  else
    let r2 :=
      match p1.2 with
      | ',' :: t => t
      | other => other
    let r3 := (r2.span Char.isDigit).2
    match r3 with
    | ' ' :: '+' :: r4 =>
      let cap := (r4.span Char.isDigit).1
      if cap.isEmpty then none else some (digitsToNat cap)
    | _ => none

/-- Match the hunk-header regex at the start of `s`; return capture group 1. -/
def matchHeaderAt : List Char → Option Nat
  | '@' :: '@' :: ' ' :: '-' :: rest => headerTail rest
  | _ => none

/-- Python `re.search` for the hunk-header pattern: try every start
position left to right. -/
def searchHeader : List Char → Option Nat
  | [] => none
  | c :: cs =>
    match matchHeaderAt (c :: cs) with
    | some n => some n
    | none => searchHeader cs

/-! ## `calculate_line_positions` -/

/-- The loop state of `calculate_line_positions`. -/
structure CalcState where
  positions : List (Int × Int)
  position : Int
  current_line : Int
  in_hunk : Bool
deriving Repr, DecidableEq

/-- Initial state of the loop in `calculate_line_positions`. -/
def calcInit : CalcState := ⟨[], 0, 0, false⟩

/-- The in-hunk counting code of `calculate_line_positions` (pr_review.py
lines 126-135): every line advances `position`; a line not starting with
`-` records `positions[current_line] = position` and advances
`current_line`. -/
def bodyStep (s : CalcState) (line : List Char) : CalcState :=
  let pos := s.position + 1
  if line.take 1 = ['-'] then
    { s with position := pos }
  else
    { s with
      position := pos
      positions := dictInsert s.positions s.current_line pos
      current_line := s.current_line + 1 }

/-- One iteration of the loop body of `calculate_line_positions`
(pr_review.py lines 112-135).  A line starting with `@@` sets `in_hunk`;
if the regex also matches, the line is a hunk header: `current_line` is
reset to the capture and only `position` advances (the `continue` is only
reached on a regex match, so a `@@` line whose regex fails falls through
to the body-counting code with `in_hunk` freshly true).  Before the first
hunk nothing is counted. -/
def calcStep (s : CalcState) (line : List Char) : CalcState :=
  if line.take 2 = ['@', '@'] then
    match searchHeader line with
    | some n =>
      { s with in_hunk := true, current_line := (n : Int), position := s.position + 1 }
    | none =>
      bodyStep { s with in_hunk := true } line
  else if s.in_hunk = false then s
  else bodyStep s line

/-- `calculate_line_positions` (pr_review.py lines 99-138): map from
target-file line numbers to positions within the whole patch text. -/
def calculate_line_positions (patch : List Char) : List (Int × Int) :=
  ((pySplit '\n' patch).foldl calcStep calcInit).positions

/-! ## `find_closest_line` -/

/-- Python `min(xs, key=lambda x: abs(x - target))` on `best :: xs`:
the first element attaining the minimal distance wins. -/
def minByDist (target : Int) : Int → List Int → Int
  | best, [] => best
  | best, x :: xs =>
    if |x - target| < |best - target| then minByDist target x xs
    else minByDist target best xs

/-- `find_closest_line` (pr_review.py lines 140-159): the target line
itself if it is a key, else the key nearest to it (ties to the smaller
key, by the ascending scan) provided the distance is at most
`max_distance`, else `none`. -/
def find_closest_line (target_line : Int) (positions : List (Int × Int))
    (max_distance : Int) : Option Int :=
  if target_line ∈ keysOf positions then some target_line
  else
    match List.insertionSort (· ≤ ·) (keysOf positions) with
    | [] => none
    | a :: as =>
      let closest := minByDist target_line a as
      if |closest - target_line| ≤ max_distance then some closest else none

/-! ## `fnmatch` glob matching

The file filter matches filenames with `fnmatch.fnmatch` (case-sensitive
on POSIX): `*` matches any character sequence, `?` any single character,
`[seq]` a character class (`[!seq]` negated, a `]` right after the
opening counted as a member, `a-b` ranges, an unterminated `[` literal). -/

/-- Scan a character-class body up to the closing `]`; `none` when the
class is unterminated. -/
def findClose : List Char → Option (List Char × List Char)
  | [] => none
  | ']' :: r => some ([], r)
  | c :: r =>
    match findClose r with
    | some (content, rest) => some (c :: content, rest)
    | none => none

/-- Parse a character class after the opening `[`: negation flag, member
characters, rest of the pattern. -/
def parseClass (ps : List Char) : Option (Bool × List Char × List Char) :=
  match ps with
  | '!' :: ps1 =>
    (match ps1 with
     | ']' :: r =>
       (findClose r).map (fun p => (true, ']' :: p.1, p.2))
     | _ => (findClose ps1).map (fun p => (true, p.1, p.2)))
  | _ =>
    (match ps with
     | ']' :: r =>
       (findClose r).map (fun p => (false, ']' :: p.1, p.2))
     | _ => (findClose ps).map (fun p => (false, p.1, p.2)))

/-- Membership of `c` in the members of a character class (`a-b` is a
range; a `-` without both endpoints is literal). -/
def inClass : List Char → Char → Bool
  | a :: '-' :: b :: rest, c => (a ≤ c && c ≤ b) || inClass rest c
  | a :: rest, c => a = c || inClass rest c
  | [], _ => false

/-- `fnmatch`-style glob matching of `s` against pattern `p`, with a
structural fuel argument (ample whenever `p.length + s.length < fuel`;
every recursive call strictly shrinks that sum). -/
def globMatchAux : Nat → List Char → List Char → Bool
  | 0, _, _ => false
  | fuel + 1, p, s =>
    match p, s with
    | [], [] => true
    | [], _ :: _ => false
    | '*' :: ps, s =>
      globMatchAux fuel ps s ||
        (match s with
         | [] => false
         | _ :: s1 => globMatchAux fuel ('*' :: ps) s1)
    | '?' :: ps, _ :: s1 => globMatchAux fuel ps s1
    | '?' :: _, [] => false
    | '[' :: ps, s =>
      (match parseClass ps with
       | some (neg, content, rest) =>
         (match s with
          | [] => false
          | c :: s1 => (xor (inClass content c) neg) && globMatchAux fuel rest s1)
       | none =>
         (match s with
          | '[' :: s1 => globMatchAux fuel ps s1
          | _ => false))
    | pc :: ps, c :: s1 => pc = c && globMatchAux fuel ps s1
    | _ :: _, [] => false

/-- `fnmatch`-style glob matching of `s` against pattern `p`. -/
def globMatch (p s : List Char) : Bool :=
  globMatchAux (p.length + s.length + 1) p s

/-- `fnmatch(filename, pattern)` as used by `should_review_file`. -/
def fnmatch (filename pattern : List Char) : Bool :=
  globMatch pattern filename

/-! ## `FileFilterConfig` -/

/-- The file-filter configuration (pr_review.py lines 17-20). -/
structure FileFilterConfig where
  whitelist_patterns : List (List Char)
  blacklist_patterns : List (List Char)

/-- The pattern cleanup of `FileFilterConfig.from_env` (pr_review.py
lines 25-30): split the raw environment value on commas, strip each
entry, drop blanks. -/
def cleanPatterns (env : List Char) : List (List Char) :=
  ((pySplit ',' env).map pyStrip).filter (· ≠ [])

/-- `FileFilterConfig.from_env` (pr_review.py lines 22-36), taking the raw
values of `PR_REVIEW_WHITELIST` and `PR_REVIEW_BLACKLIST`: clean both
pattern lists and default an empty whitelist to the single match-all
pattern `*`. -/
def FileFilterConfig.from_env (whitelistEnv blacklistEnv : List Char) :
    FileFilterConfig :=
  { whitelist_patterns :=
      if cleanPatterns whitelistEnv = [] then [['*']]
      else cleanPatterns whitelistEnv
    blacklist_patterns := cleanPatterns blacklistEnv }

/-- `should_review_file` (pr_review.py lines 38-56): any blacklist match
rejects; otherwise some whitelist pattern must match. -/
def should_review_file (cfg : FileFilterConfig) (filename : List Char) : Bool :=
  if cfg.blacklist_patterns.any (fun p => fnmatch filename p) then false
  else cfg.whitelist_patterns.any (fun p => fnmatch filename p)

/-! ## The reviewer response (`review_code`) -/

/-- A JSON value, the result of Python's `json.loads`. -/
inductive Json where
  | null : Json
  | bool : Bool → Json
  | num : Int → Json
  | str : List Char → Json
  | arr : List Json → Json
  | obj : List (List Char × Json) → Json
deriving Repr

/-- The response handling of `review_code` (pr_review.py lines 220-235):
the reviewer's text is parsed as JSON (`none` models a parse failure,
i.e. `json.JSONDecodeError`, caught and turned into `[]`); a parse result
that is not an array is also turned into `[]`; otherwise the array's
elements are the findings. -/
def review_code (response : Option Json) : List Json :=
  match response with
  | some (Json.arr xs) => xs
  | _ => []

/-! ## The review orchestrator (`run_review`) -/

/-- One reviewer finding, i.e. one element of the parsed response array:
`comment['line']`, `comment['comment']`, and `comment.get('suggestion',
'')` (the empty-string default already applied). -/
structure Finding where
  line : Int
  comment : List Char
  suggestion : List Char
deriving Repr, DecidableEq

/-- One inline review comment `{'path': …, 'position': …, 'body': …}`
(pr_review.py lines 302-306). -/
structure InlineComment where
  path : List Char
  position : Int
  body : List Char
deriving Repr, DecidableEq

/-- The deduplication key `f"{path}:{position}"` (pr_review.py lines 94
and 298). -/
def comment_key (path : List Char) (position : Int) : List Char :=
  path ++ ':' :: intStr position

/-- `get_existing_comments` (pr_review.py lines 89-97): index the
platform's review comments, given as `(path, position, body)` triples, by
their dedup key. -/
def get_existing_comments (comments : List (List Char × Int × List Char)) :
    List (List Char × List Char) :=
  comments.foldl (fun acc c => dictInsert acc (comment_key c.1 c.2.1) c.2.2) []

/-- The inline comment body
`f"{comment}\n\n```suggestion\n{suggestion}\n```"` (pr_review.py line
297). -/
def inline_comment_body (comment suggestion : List Char) : List Char :=
  comment ++ ("\n\n```suggestion\n").data ++ suggestion ++ ("\n```").data

/-- The general comment body with its `In file X, line N` header
(pr_review.py line 309). -/
def general_comment_body (filename : List Char) (line : Int)
    (comment suggestion : List Char) : List Char :=
  ("**In file ").data ++ filename ++ (", line ").data ++ intStr line ++
    (":**\n\n").data ++ comment ++ ("\n\n```suggestion\n").data ++
    suggestion ++ ("\n```").data

/-- The placement of one finding (pr_review.py lines 283-310): resolve the
target line via `find_closest_line` (max distance 3); if resolved, build
an inline comment and append it unless its dedup key is already among the
existing comments; if unresolved, always append a general comment. -/
def process_finding (filename : List Char) (line_positions : List (Int × Int))
    (existing : List (List Char × List Char)) (c : Finding)
    (draft : List InlineComment) (general : List (List Char)) :
    List InlineComment × List (List Char) :=
  match find_closest_line c.line line_positions 3 with
  | some mapped_line =>
    let position := dictGet line_positions mapped_line
    let key := comment_key filename position
    if key ∈ keysOf existing then (draft, general)
    else
      (draft ++ [{ path := filename, position := position,
                   body := inline_comment_body c.comment c.suggestion }],
       general)
  | none =>
    (draft,
     general ++ [general_comment_body filename c.line c.comment c.suggestion])

/-- One changed file of the pull request, together with the data the two
collaborators return for it: its change status, the content fetch result
(`none` models a fetch failure), the diff patch (`none` when the platform
supplies no patch), and the reviewer's findings for it. -/
structure ChangedFile where
  status : List Char
  filename : List Char
  content : Option (List Char)
  patch : Option (List Char)
  findings : List Finding
deriving Repr, DecidableEq

/-- The mutable state of `run_review`'s file loop. -/
structure RunState where
  draft : List InlineComment
  general : List (List Char)
  skipped : List (List Char)
  reviewed : List (List Char)

/-- The empty initial `RunState` (pr_review.py lines 241-248). -/
def runInit : RunState := ⟨[], [], [], []⟩

/-- The body of `run_review`'s file loop (pr_review.py lines 250-313):
skip removed files; filter-rejected files go to `skipped_files`; a file
passing the filter is appended to `reviewed_files` first, and is then
silently dropped if its content fetch fails or it has no patch; otherwise
each of its findings is placed with `process_finding`. -/
def process_file (cfg : FileFilterConfig)
    (existing : List (List Char × List Char)) (st : RunState)
    (f : ChangedFile) : RunState :=
  if f.status = ("removed").data then st
  else if should_review_file cfg f.filename = false then
    { st with skipped := st.skipped ++ [f.filename] }
  else
    let st1 := { st with reviewed := st.reviewed ++ [f.filename] }
    match f.content with
    | none => st1
    | some _ =>
      match f.patch with
      | none => st1
      | some patch =>
        let line_positions := calculate_line_positions patch
        f.findings.foldl
          (fun s c =>
            let dg := process_finding f.filename line_positions existing c
              s.draft s.general
            { s with draft := dg.1, general := dg.2 })
          st1

/-- The whole file loop of `run_review`. -/
def run_files (cfg : FileFilterConfig)
    (existing : List (List Char × List Char)) (files : List ChangedFile) :
    RunState :=
  files.foldl (process_file cfg existing) runInit

/-- The `- filename` listing lines of the review body (pr_review.py lines
322-323 and 327-328). -/
def fileList (files : List (List Char)) : List Char :=
  (files.map (fun f => ("- ").data ++ f ++ ['\n'])).flatten

/-- The aggregate review body (pr_review.py lines 318-336). -/
def review_body (reviewed skipped : List (List Char))
    (draft : List InlineComment) (general : List (List Char)) : List Char :=
  let b1 := ("🤖 Code Review Summary:\n\n").data
  let b2 := b1 ++
    (if reviewed ≠ [] then
      ("Reviewed ").data ++ natDigits reviewed.length ++ (" files:\n").data ++
        fileList reviewed
     else [])
  let b3 := b2 ++
    (if skipped ≠ [] then
      ("\nSkipped ").data ++ natDigits skipped.length ++
        (" files based on filter configuration:\n").data ++ fileList skipped
     else [])
  let b4 := b3 ++
    (if draft ≠ [] then
      ("\nFound ").data ++ natDigits draft.length ++
        (" suggestions for improvement.").data
     else ("\n✨ Great job! The code looks clean and well-written.").data)
  b4 ++
    (if general ≠ [] then
      ("\n\n### Additional Comments:\n\n").data ++
        List.intercalate ("\n\n").data general
     else [])

/-- The one review request submitted to the platform
(`pull_request.create_review`). -/
structure Review where
  body : List Char
  event : List Char
  comments : List InlineComment

/-- The submission decision at the end of `run_review` (pr_review.py lines
315-347): submit exactly one `COMMENT` review carrying the inline batch
and the aggregate body when there is at least one inline comment, general
comment or skipped file; otherwise submit nothing. -/
def create_review (draft : List InlineComment) (general : List (List Char))
    (skipped reviewed : List (List Char)) : Option Review :=
  if draft ≠ [] ∨ general ≠ [] ∨ skipped ≠ [] then
    some { body := review_body reviewed skipped draft general
           event := ("COMMENT").data
           comments := draft }
  else none

/-! ## Valid unified-diff patches

To state invariants over "every valid unified-diff patch" we work with a
structured patch — a list of hunks, each a header plus tagged body lines —
and render it to the raw text that `calculate_line_positions` consumes. -/

/-- The marker of a diff body line: context, addition, or deletion. -/
inductive DiffTag where
  | ctx : DiffTag
  | add : DiffTag
  | del : DiffTag
deriving Repr, DecidableEq

/-- One body line of a hunk: its marker and its text (without marker). -/
structure DiffLine where
  tag : DiffTag
  text : List Char

/-- One hunk: the four header numbers and the body lines. -/
structure Hunk where
  oldStart : Nat
  oldLen : Nat
  newStart : Nat
  newLen : Nat
  body : List DiffLine

/-- The number of body lines present in the new file version (context and
addition lines); in a well-formed diff this equals the header's
`newLen`. -/
def nonDel (body : List DiffLine) : Nat :=
  (body.filter (fun dl => dl.tag ≠ DiffTag.del)).length

/-- The marker character of a tag. -/
def tagChar : DiffTag → Char
  | DiffTag.ctx => ' '
  | DiffTag.add => '+'
  | DiffTag.del => '-'

/-- Render one body line: marker followed by text. -/
def renderBody (dl : DiffLine) : List Char :=
  tagChar dl.tag :: dl.text

/-- Render a hunk header `@@ -a,b +c,d @@`. -/
def renderHeader (h : Hunk) : List Char :=
  '@' :: '@' :: ' ' :: '-' :: natDigits h.oldStart ++
    ',' :: natDigits h.oldLen ++
    ' ' :: '+' :: natDigits h.newStart ++
    ',' :: natDigits h.newLen ++ [' ', '@', '@']

/-- Render a hunk as its list of lines. -/
def renderHunkLines (h : Hunk) : List (List Char) :=
  renderHeader h :: h.body.map renderBody

/-- Join lines with newline separators, as Python `'\n'.join(lines)`. -/
def joinLines : List (List Char) → List Char
  | [] => []
  | [l] => l
  | l :: l2 :: rest => l ++ '\n' :: joinLines (l2 :: rest)

/-- Render a structured patch as raw text: all hunks' lines joined with
newlines. -/
def renderPatch (hunks : List Hunk) : List Char :=
  joinLines ((hunks.map renderHunkLines).flatten)

/-- A structured patch is a valid unified diff when no body text contains
a newline and every hunk's `newLen` agrees with its number of context and
addition lines. -/
def ValidPatch (hunks : List Hunk) : Prop :=
  (∀ h ∈ hunks, ∀ dl ∈ h.body, '\n' ∉ dl.text) ∧
    (∀ h ∈ hunks, h.newLen = nonDel h.body)

/-! ## Helper lemmas -/

theorem mem_keysOf_dictInsert {α β : Type} [DecidableEq α] (m : List (α × β))
    (k k' : α) (v : β) :
    k' ∈ keysOf (dictInsert m k v) ↔ k' = k ∨ k' ∈ keysOf m := by
  induction m with
  | nil => simp [dictInsert, keysOf]
  | cons p rest ih =>
    obtain ⟨a, b⟩ := p
    by_cases h : a = k
    · subst h
      simp [dictInsert, keysOf]
    · simp only [dictInsert, if_neg h, keysOf, List.map_cons, List.mem_cons] at ih ⊢
      tauto

theorem keysOf_append {α β : Type} (l r : List (α × β)) :
    keysOf (l ++ r) = keysOf l ++ keysOf r := by
  simp [keysOf]

/-! ## C1 -/

/-- C1: for the patch `@@ -1,3 +1,4 @@\n line1\n+line2\n line3\n line4`,
`calculate_line_positions` returns exactly the map
`{1 ↦ 2, 2 ↦ 3, 3 ↦ 4, 4 ↦ 5}`: the hunk header occupies position 1 and
each subsequent context or added line receives the next position and the
next target-file line number. -/
theorem c1_scenario_a :
    calculate_line_positions ("@@ -1,3 +1,4 @@\n line1\n+line2\n line3\n line4").data
      = [(1, 2), (2, 3), (3, 4), (4, 5)] := by decide

/-! ## C6 -/

/-- C6: a reviewer response that is malformed (no JSON parse, modelled as
`none`) or valid JSON but not an array yields the empty finding list — no
exception escapes, the run continues — and an empty array likewise yields
zero findings. -/
theorem c6_review_code_malformed :
    (∀ r : Option Json, (∀ xs : List Json, r ≠ some (Json.arr xs)) →
        review_code r = [])
  ∧ review_code (some (Json.arr [])) = [] := by
  constructor
  · intro r h
    match r with
    | none => rfl
    | some Json.null => rfl
    | some (Json.bool b) => rfl
    | some (Json.num n) => rfl
    | some (Json.str s) => rfl
    | some (Json.obj kvs) => rfl
    | some (Json.arr xs) => exact absurd rfl (h xs)
  · rfl

/-- Witness for C6: evaluated at the malformed response `none`. -/
theorem c6_review_code_malformed_witness : review_code none = [] :=
  c6_review_code_malformed.1 none (fun xs h => by cases h)

/-! ## C7 -/

/-- C7: rerunning the orchestrator on unchanged input duplicates no inline
comment.  First, a resolved finding whose dedup key `path:position` is
already in the existing-comment index is never appended (nothing changes).
Second, rerunning `process_finding` on the same finding after the first
run's produced inline comments have been added to the index yields an
empty inline batch — and the key computed for identical path and position
is identical across runs since `comment_key` is a pure function of
them. -/
theorem c7_dedup_idempotent :
    (∀ filename line_positions existing c draft general mapped,
        find_closest_line c.line line_positions 3 = some mapped →
        comment_key filename (dictGet line_positions mapped) ∈ keysOf existing →
        process_finding filename line_positions existing c draft general =
          (draft, general))
  ∧ (∀ filename line_positions existing c mapped,
        find_closest_line c.line line_positions 3 = some mapped →
        (process_finding filename line_positions
            (existing ++
              (process_finding filename line_positions existing c [] []).1.map
                (fun ic => (comment_key ic.path ic.position, ic.body)))
            c [] []).1 = []) := by
  constructor
  · intro filename lp existing c draft general mapped hres hkey
    simp only [process_finding, hres, if_pos hkey]
  · intro filename lp existing c mapped hres
    by_cases hkey : comment_key filename (dictGet lp mapped) ∈ keysOf existing
    · simp only [process_finding, hres, if_pos hkey, List.map_nil, List.append_nil]
    · simp only [process_finding, hres, if_neg hkey, List.nil_append, List.map_cons,
        List.map_nil, keysOf_append]
      rw [if_pos]
      simp [keysOf]

/-- Witness for C7: a finding at line 1 of a one-line map at position 2,
with its key `f:2` already indexed. -/
theorem c7_dedup_idempotent_witness :
    process_finding ("f").data [(1, 2)]
        [((("f:2").data), ("old body").data)]
        { line := 1, comment := ("c").data, suggestion := [] } [] [] =
      ([], []) :=
  c7_dedup_idempotent.1 ("f").data [(1, 2)]
    [((("f:2").data), ("old body").data)]
    { line := 1, comment := ("c").data, suggestion := [] } [] [] 1
    (by decide) (by decide)

/-! ## C8 -/

/-- C8: a finding whose target line resolves to no key within distance 3
is emitted only as a general comment — the inline batch is unchanged, the
general comment's body carries the `In file X, line N` header prefix, and
the outcome is independent of the existing-comment index (no dedup
check). -/
theorem c8_unresolved_general :
    ∀ filename line_positions existing existing2 c draft general,
      find_closest_line c.line line_positions 3 = none →
      process_finding filename line_positions existing c draft general =
          (draft,
            general ++ [general_comment_body filename c.line c.comment c.suggestion])
        ∧ process_finding filename line_positions existing c draft general =
            process_finding filename line_positions existing2 c draft general
        ∧ ∃ t, general_comment_body filename c.line c.comment c.suggestion =
            ("**In file ").data ++ filename ++ (", line ").data ++
              intStr c.line ++ (":**\n\n").data ++ t := by
  intro filename lp existing existing2 c draft general hres
  refine ⟨?_, ?_, ?_⟩
  · simp only [process_finding, hres]
  · simp only [process_finding, hres]
  · exact ⟨c.comment ++ ("\n\n```suggestion\n").data ++ c.suggestion ++
      ("\n```").data, by simp [general_comment_body]⟩

/-- Witness for C8: a finding at line 50 against a map whose only key is
1. -/
theorem c8_unresolved_general_witness :
    process_finding ("f").data [(1, 2)] []
        { line := 50, comment := ("c").data, suggestion := [] } [] [] =
      ([], [general_comment_body ("f").data 50 ("c").data []]) :=
  (c8_unresolved_general ("f").data [(1, 2)] [] []
    { line := 50, comment := ("c").data, suggestion := [] } [] []
    (by decide)).1

/-! ## C5 -/

theorem bodyStep_position (s : CalcState) (line : List Char) :
    (bodyStep s line).position = s.position + 1 := by
  by_cases h : line.take 1 = ['-'] <;> simp [bodyStep, h]

theorem calcStep_position_mono (s : CalcState) (line : List Char) :
    s.position ≤ (calcStep s line).position := by
  by_cases h2 : line.take 2 = ['@', '@']
  · cases hsh : searchHeader line with
    | some n =>
      rw [calcStep, if_pos h2, hsh]
      change s.position ≤ s.position + 1
      omega
    | none =>
      rw [calcStep, if_pos h2, hsh, bodyStep_position]
      change s.position ≤ s.position + 1
      omega
  · rw [calcStep, if_neg h2]
    by_cases hh : s.in_hunk = false
    · rw [if_pos hh]
    · rw [if_neg hh, bodyStep_position]
      omega

theorem calcStep_skip (s : CalcState) (line : List Char)
    (h2 : line.take 2 ≠ ['@', '@']) (hh : s.in_hunk = false) :
    calcStep s line = s := by
  rw [calcStep, if_neg h2, if_pos hh]

/-- C5: lines occurring before the first hunk header are not counted at
all, so a patch with no hunk header (no line starting with `@@`) yields
an empty map; each hunk header resets only the target-file line counter
(`current_line := newStart`) while the position counter accumulates
monotonically over the entire patch. -/
theorem c5_hunk_header_spec :
    (∀ patch, (∀ l ∈ pySplit '\n' patch, l.take 2 ≠ ['@', '@']) →
        calculate_line_positions patch = [])
  ∧ (∀ s line n, line.take 2 = ['@', '@'] → searchHeader line = some n →
        calcStep s line =
          { s with in_hunk := true, current_line := (n : Int),
                   position := s.position + 1 })
  ∧ (∀ (lines : List (List Char)) (s : CalcState),
        s.position ≤ (lines.foldl calcStep s).position) := by
  have hskip : ∀ (lines : List (List Char)) (s : CalcState),
      s.in_hunk = false → (∀ l ∈ lines, l.take 2 ≠ ['@', '@']) →
      lines.foldl calcStep s = s := by
    intro lines
    induction lines with
    | nil => intro s _ _; rfl
    | cons l rest ih =>
      intro s hh hl
      rw [List.foldl_cons, calcStep_skip s l (hl l (List.mem_cons_self l rest)) hh]
      exact ih s hh (fun l' hl' => hl l' (List.mem_cons_of_mem l hl'))
  refine ⟨?_, ?_, ?_⟩
  · intro patch h
    rw [calculate_line_positions, hskip (pySplit '\n' patch) calcInit rfl h]
    rfl
  · intro s line n h2 hsearch
    rw [calcStep, if_pos h2, hsearch]
  · intro lines
    induction lines with
    | nil => intro s; exact le_refl _
    | cons l rest ih =>
      intro s
      rw [List.foldl_cons]
      exact le_trans (calcStep_position_mono s l) (ih (calcStep s l))

/-- Witness for C5: a headerless two-line patch yields the empty map, and
the header `@@ -1,3 +7,4 @@` processed mid-run resets `current_line` to 7
while only advancing `position`. -/
theorem c5_hunk_header_spec_witness :
    calculate_line_positions ("abc\ndef").data = [] ∧
      calcStep ⟨[], 5, 9, true⟩ ("@@ -1,3 +7,4 @@").data = ⟨[], 6, 7, true⟩ := by
  constructor
  · exact c5_hunk_header_spec.1 ("abc\ndef").data (by decide)
  · exact c5_hunk_header_spec.2.1 ⟨[], 5, 9, true⟩ ("@@ -1,3 +7,4 @@").data 7
      (by decide) (by decide)

/-! ## C10 -/

/-- The inner findings loop never touches the skipped or reviewed
lists. -/
theorem findings_fold_preserves (filename : List Char)
    (lp : List (Int × Int)) (existing : List (List Char × List Char)) :
    ∀ (cs : List Finding) (st : RunState),
      (cs.foldl
        (fun s c =>
          let dg := process_finding filename lp existing c s.draft s.general
          { s with draft := dg.1, general := dg.2 })
        st).skipped = st.skipped ∧
      (cs.foldl
        (fun s c =>
          let dg := process_finding filename lp existing c s.draft s.general
          { s with draft := dg.1, general := dg.2 })
        st).reviewed = st.reviewed := by
  intro cs
  induction cs with
  | nil => intro st; exact ⟨rfl, rfl⟩
  | cons c rest ih =>
    intro st
    rw [List.foldl_cons]
    exact ih _

/-- The Boolean test for a file rejected by the filter (and not
removed). -/
def isFilterRejected (cfg : FileFilterConfig) (f : ChangedFile) : Bool :=
  decide (f.status ≠ ("removed").data) && !should_review_file cfg f.filename

/-- The Boolean test for a file accepted by the filter (and not
removed). -/
def isFilterAccepted (cfg : FileFilterConfig) (f : ChangedFile) : Bool :=
  decide (f.status ≠ ("removed").data) && should_review_file cfg f.filename

theorem process_file_skipped_reviewed (cfg : FileFilterConfig)
    (existing : List (List Char × List Char)) (st : RunState)
    (f : ChangedFile) :
    (process_file cfg existing st f).skipped =
        st.skipped ++ (if isFilterRejected cfg f then [f.filename] else []) ∧
      (process_file cfg existing st f).reviewed =
        st.reviewed ++ (if isFilterAccepted cfg f then [f.filename] else []) := by
  by_cases hrem : f.status = ("removed").data
  · simp [process_file, hrem, isFilterRejected, isFilterAccepted]
  · by_cases hrev : should_review_file cfg f.filename = false
    · simp [process_file, hrem, hrev, isFilterRejected, isFilterAccepted]
    · have hrev2 : should_review_file cfg f.filename = true := by
        revert hrev
        cases should_review_file cfg f.filename <;> simp
      have hrej : isFilterRejected cfg f = false := by
        simp [isFilterRejected, hrem, hrev2]
      have hacc : isFilterAccepted cfg f = true := by
        simp [isFilterAccepted, hrem, hrev2]
      rw [hrej, hacc]
      have hr1 : (if (false : Bool) then [f.filename] else []) = ([] : List (List Char)) := rfl
      have hr2 : (if (true : Bool) then [f.filename] else []) = [f.filename] := rfl
      rw [hr1, hr2, List.append_nil]
      rw [process_file, if_neg hrem, if_neg (by simp [hrev2])]
      cases hc : f.content with
      | none => exact ⟨rfl, rfl⟩
      | some cont =>
        cases hp : f.patch with
        | none => exact ⟨rfl, rfl⟩
        | some patch =>
          exact findings_fold_preserves f.filename
            (calculate_line_positions patch) existing f.findings _

/-- A filename in a list yields its `- filename` line inside the rendered
file listing. -/
theorem fileList_infix (fn : List Char) :
    ∀ files : List (List Char), fn ∈ files →
      ∃ u v, fileList files = u ++ (("- ").data ++ fn ++ ['\n']) ++ v := by
  intro files
  induction files with
  | nil => intro h; cases h
  | cons g rest ih =>
    intro h
    rcases List.mem_cons.mp h with h | h
    · subst h
      exact ⟨[], fileList rest, by simp [fileList]⟩
    · obtain ⟨u, v, hu⟩ := ih h
      exact ⟨("- ").data ++ g ++ ['\n'] ++ u, v, by
        simp [fileList] at hu ⊢
        simp [hu]⟩

/-- C10: a file passing the filter is recorded as reviewed before its
content is fetched, so files whose content fetch fails or which have no
patch still count as reviewed and never as skipped: the skipped list is
exactly the filter-rejected (non-removed) files, the reviewed list is
exactly the filter-accepted (non-removed) files, and every reviewed
filename is listed with a `- filename` line in the aggregate review
body. -/
theorem c10_reviewed_skipped_partition (cfg : FileFilterConfig)
    (existing : List (List Char × List Char)) (files : List ChangedFile) :
    (run_files cfg existing files).skipped =
        (files.filter (isFilterRejected cfg)).map ChangedFile.filename
  ∧ (run_files cfg existing files).reviewed =
        (files.filter (isFilterAccepted cfg)).map ChangedFile.filename
  ∧ (∀ fn ∈ (run_files cfg existing files).reviewed,
        ∀ draft general, ∃ u v,
          review_body (run_files cfg existing files).reviewed
              (run_files cfg existing files).skipped draft general =
            u ++ (("- ").data ++ fn ++ ['\n']) ++ v) := by
  have main : ∀ (fs : List ChangedFile) (st : RunState),
      (fs.foldl (process_file cfg existing) st).skipped =
          st.skipped ++ (fs.filter (isFilterRejected cfg)).map ChangedFile.filename
        ∧ (fs.foldl (process_file cfg existing) st).reviewed =
          st.reviewed ++ (fs.filter (isFilterAccepted cfg)).map ChangedFile.filename := by
    intro fs
    induction fs with
    | nil => intro st; simp
    | cons f rest ih =>
      intro st
      rw [List.foldl_cons]
      obtain ⟨ih1, ih2⟩ := ih (process_file cfg existing st f)
      obtain ⟨h1, h2⟩ := process_file_skipped_reviewed cfg existing st f
      constructor
      · rw [ih1, h1]
        by_cases hrej : isFilterRejected cfg f
        · simp [List.filter_cons, hrej]
        · simp [List.filter_cons, hrej]
      · rw [ih2, h2]
        by_cases hacc : isFilterAccepted cfg f
        · simp [List.filter_cons, hacc]
        · simp [List.filter_cons, hacc]
  obtain ⟨h1, h2⟩ := main files runInit
  simp only [run_files]
  refine ⟨by rw [h1]; rfl, by rw [h2]; rfl, ?_⟩
  intro fn hfn draft general
  have hne : (files.foldl (process_file cfg existing) runInit).reviewed ≠ [] := by
    intro hnil
    rw [hnil] at hfn
    cases hfn
  obtain ⟨u, v, hu⟩ :=
    fileList_infix fn (files.foldl (process_file cfg existing) runInit).reviewed hfn
  refine ⟨("🤖 Code Review Summary:\n\n").data ++ ("Reviewed ").data ++
    natDigits (files.foldl (process_file cfg existing) runInit).reviewed.length ++
    (" files:\n").data ++ u,
    v ++
      (if (files.foldl (process_file cfg existing) runInit).skipped ≠ [] then
        ("\nSkipped ").data ++
          natDigits (files.foldl (process_file cfg existing) runInit).skipped.length ++
          (" files based on filter configuration:\n").data ++
          fileList (files.foldl (process_file cfg existing) runInit).skipped
       else []) ++
      (if draft ≠ [] then
        ("\nFound ").data ++ natDigits draft.length ++
          (" suggestions for improvement.").data
       else ("\n✨ Great job! The code looks clean and well-written.").data) ++
      (if general ≠ [] then
        ("\n\n### Additional Comments:\n\n").data ++
          List.intercalate ("\n\n").data general
       else []), ?_⟩
  simp only [review_body, if_pos hne]
  rw [hu]
  simp [List.append_assoc]

/-- Witness for C10: one modified file passing a match-all filter whose
content fetch fails is still the one reviewed file, nothing is skipped,
and its `- a.py` line appears in the body. -/
theorem c10_reviewed_skipped_partition_witness :
    (run_files { whitelist_patterns := [['*']], blacklist_patterns := [] } []
        [{ status := ("modified").data, filename := ("a.py").data,
           content := none, patch := none, findings := [] }]).reviewed =
      [("a.py").data] ∧
    (run_files { whitelist_patterns := [['*']], blacklist_patterns := [] } []
        [{ status := ("modified").data, filename := ("a.py").data,
           content := none, patch := none, findings := [] }]).skipped = [] ∧
    ∃ u v,
      review_body [("a.py").data] [] [] [] =
        u ++ (("- ").data ++ ("a.py").data ++ ['\n']) ++ v := by
  have h := c10_reviewed_skipped_partition
    { whitelist_patterns := [['*']], blacklist_patterns := [] } []
    [{ status := ("modified").data, filename := ("a.py").data,
       content := none, patch := none, findings := [] }]
  have hrev := h.2.1
  have hskip := h.1
  rw [show (List.filter (isFilterAccepted
      { whitelist_patterns := [['*']], blacklist_patterns := [] })
      [{ status := ("modified").data, filename := ("a.py").data,
         content := none, patch := none, findings := ([] : List Finding) }]) =
      [{ status := ("modified").data, filename := ("a.py").data,
         content := none, patch := none, findings := ([] : List Finding) }]
    from by decide] at hrev
  rw [show (List.filter (isFilterRejected
      { whitelist_patterns := [['*']], blacklist_patterns := [] })
      [{ status := ("modified").data, filename := ("a.py").data,
         content := none, patch := none, findings := ([] : List Finding) }]) =
      [] from by decide] at hskip
  refine ⟨hrev, hskip, ?_⟩
  have h3 := h.2.2 (("a.py").data) (by rw [hrev]; exact List.mem_singleton_self _) [] []
  rw [hrev, hskip] at h3
  exact h3

/-! ## C3 -/

/-- Python's `min` with an absolute-distance key over a sorted list
returns an element of minimal distance, and on ties the earliest — for an
ascending list, the smallest. -/
theorem minByDist_spec (t : Int) :
    ∀ (xs : List Int) (best : Int), (best :: xs).Sorted (· ≤ ·) →
      minByDist t best xs ∈ best :: xs ∧
        ∀ x ∈ best :: xs,
          |minByDist t best xs - t| ≤ |x - t| ∧
            (|minByDist t best xs - t| = |x - t| → minByDist t best xs ≤ x) := by
  intro xs
  induction xs with
  | nil =>
    intro best _
    refine ⟨List.mem_singleton_self best, ?_⟩
    intro x hx
    rw [List.mem_singleton] at hx
    subst hx
    exact ⟨le_refl _, fun _ => le_refl _⟩
  | cons x xs ih =>
    intro best hsorted
    rw [List.sorted_cons] at hsorted
    obtain ⟨hle, htail⟩ := hsorted
    by_cases hlt : |x - t| < |best - t|
    · have step : minByDist t best (x :: xs) = minByDist t x xs := by
        simp [minByDist, hlt]
      obtain ⟨hmem, hbound⟩ := ih x htail
      rw [step]
      refine ⟨List.mem_cons_of_mem best hmem, ?_⟩
      intro y hy
      rcases List.mem_cons.mp hy with hy | hy
      · subst hy
        have hx : |minByDist t x xs - t| ≤ |x - t| :=
          (hbound x (List.mem_cons_self x xs)).1

        exact ⟨le_of_lt (lt_of_le_of_lt hx hlt), fun he => absurd he
          (ne_of_lt (lt_of_le_of_lt hx hlt))⟩
      · exact hbound y hy
    · have step : minByDist t best (x :: xs) = minByDist t best xs := by
        simp [minByDist, hlt]
      have hbx : |best - t| ≤ |x - t| := le_of_not_lt hlt
      have hsorted2 : (best :: xs).Sorted (· ≤ ·) := by
        rw [List.sorted_cons]
        rw [List.sorted_cons] at htail
        exact ⟨fun b hb => hle b (List.mem_cons_of_mem x hb), htail.2⟩
      obtain ⟨hmem, hbound⟩ := ih best hsorted2
      rw [step]
      refine ⟨?_, ?_⟩
      · rcases List.mem_cons.mp hmem with hm | hm
        · rw [hm]
          exact List.mem_cons_self best (x :: xs)
        · exact List.mem_cons_of_mem best (List.mem_cons_of_mem x hm)
      · intro y hy
        have hself : |minByDist t best xs - t| ≤ |best - t| :=
          (hbound best (List.mem_cons_self best xs)).1
        rcases List.mem_cons.mp hy with hy | hy
        · subst hy
          exact hbound y (List.mem_cons_self y xs)
        rcases List.mem_cons.mp hy with hy | hy
        · subst hy
          refine ⟨le_trans hself hbx, fun he => ?_⟩
          have heb : |minByDist t best xs - t| = |best - t| := by
            have := le_trans hself hbx
            omega
          exact le_trans ((hbound best (List.mem_cons_self best xs)).2 heb)
            (hle y (List.mem_cons_self y xs))
        · exact hbound y (List.mem_cons_of_mem best hy)

/-- C3: `find_closest_line` with max distance 3 returns the target line
itself whenever it is a key of the map; otherwise, when it returns a key,
that key has minimum absolute difference from the target among all keys,
ties broken in favor of the smaller key, and the difference is at most 3;
when it returns `none` (in particular when the map is empty), every key
is farther than 3. -/
theorem c3_find_closest_line_spec (t : Int) (m : List (Int × Int)) :
    (t ∈ keysOf m → find_closest_line t m 3 = some t)
  ∧ (t ∉ keysOf m →
      (∀ c, find_closest_line t m 3 = some c →
          c ∈ keysOf m ∧ |c - t| ≤ 3 ∧
            ∀ k ∈ keysOf m, |c - t| ≤ |k - t| ∧ (|c - t| = |k - t| → c ≤ k))
        ∧ (find_closest_line t m 3 = none → ∀ k ∈ keysOf m, 3 < |k - t|)) := by
  constructor
  · intro h
    simp [find_closest_line, h]
  · intro hni
    have hperm := List.perm_insertionSort (· ≤ ·) (keysOf m)
    have hsorted := List.sorted_insertionSort (· ≤ ·) (keysOf m)
    match hs : List.insertionSort (· ≤ ·) (keysOf m) with
    | [] =>
      rw [hs] at hperm
      have hkeys : keysOf m = [] := hperm.symm.eq_nil
      constructor
      · intro c hc
        rw [find_closest_line, if_neg hni, hs] at hc
        cases hc
      · intro _ k hk
        rw [hkeys] at hk
        cases hk
    | a :: as =>
      rw [hs] at hperm hsorted
      obtain ⟨hmem, hbound⟩ := minByDist_spec t as a hsorted
      have hmemkeys : minByDist t a as ∈ keysOf m := hperm.mem_iff.mp hmem
      constructor
      · intro c hc
        rw [find_closest_line, if_neg hni, hs] at hc
        dsimp only at hc
        by_cases hd : |minByDist t a as - t| ≤ 3
        · rw [if_pos hd, Option.some.injEq] at hc
          subst hc
          refine ⟨hmemkeys, hd, ?_⟩
          intro k hk
          exact hbound k (hperm.mem_iff.mpr hk)
        · rw [if_neg hd] at hc
          cases hc
      · intro hc k hk
        rw [find_closest_line, if_neg hni, hs] at hc
        dsimp only at hc
        by_cases hd : |minByDist t a as - t| ≤ 3
        · rw [if_pos hd] at hc
          cases hc
        · have := (hbound k (hperm.mem_iff.mpr hk)).1
          omega

/-- Witness for C3: the exact-key case at line 1 of `{1 ↦ 2}`, and the
fuzzy case at line 5 of `{1 ↦ 10, 7 ↦ 20}`, which resolves to key 7 at
distance 2. -/
theorem c3_find_closest_line_spec_witness :
    find_closest_line 1 [(1, 2)] 3 = some 1 ∧
      (7 : Int) ∈ keysOf [((1 : Int), (10 : Int)), (7, 20)] ∧ |(7 : Int) - 5| ≤ 3 := by
  refine ⟨(c3_find_closest_line_spec 1 [(1, 2)]).1 (by decide), ?_⟩
  have h := ((c3_find_closest_line_spec 5 [(1, 10), (7, 20)]).2 (by decide)).1 7
    (by decide)
  exact ⟨h.1, h.2.1⟩

/-! ## C4 -/

/-- C4: `should_review_file` returns false if any blacklist pattern
glob-matches the filename (blacklist checked first); otherwise it returns
true iff some whitelist pattern matches, where `from_env` replaces a
whitelist that is empty after trimming and dropping blank entries by the
single match-all pattern `*` — so blacklist `*.lock` with whitelist `*`
rejects `package.lock`. -/
theorem c4_should_review_file_spec :
    (∀ cfg filename,
        (∃ p ∈ cfg.blacklist_patterns, fnmatch filename p = true) →
        should_review_file cfg filename = false)
  ∧ (∀ cfg filename,
        (∀ p ∈ cfg.blacklist_patterns, fnmatch filename p = false) →
        (should_review_file cfg filename = true ↔
          ∃ p ∈ cfg.whitelist_patterns, fnmatch filename p = true))
  ∧ (∀ whitelistEnv blacklistEnv,
        cleanPatterns whitelistEnv = [] →
        (FileFilterConfig.from_env whitelistEnv blacklistEnv).whitelist_patterns =
          [['*']])
  ∧ should_review_file
      (FileFilterConfig.from_env ("*").data ("*.lock").data)
      ("package.lock").data = false := by
  refine ⟨?_, ?_, ?_, ?_⟩
  · intro cfg filename h
    have hb : cfg.blacklist_patterns.any (fun p => fnmatch filename p) = true := by
      rw [List.any_eq_true]
      obtain ⟨p, hp, hm⟩ := h
      exact ⟨p, hp, hm⟩
    simp [should_review_file, hb]
  · intro cfg filename h
    have hb : cfg.blacklist_patterns.any (fun p => fnmatch filename p) = false := by
      rw [List.any_eq_false]
      intro p hp
      simp [h p hp]
    simp [should_review_file, hb, List.any_eq_true]
  · intro w b h
    simp only [FileFilterConfig.from_env]
    rw [if_pos h]
  · decide

/-- Witness for C4: the blacklisted `package.lock` case and the
default-whitelist case evaluated concretely. -/
theorem c4_should_review_file_spec_witness :
    should_review_file
        { whitelist_patterns := [['*']], blacklist_patterns := [("*.lock").data] }
        ("package.lock").data = false ∧
      (FileFilterConfig.from_env (" , ").data [] ).whitelist_patterns = [['*']] :=
  ⟨c4_should_review_file_spec.1
      { whitelist_patterns := [['*']], blacklist_patterns := [("*.lock").data] }
      ("package.lock").data ⟨("*.lock").data, by decide, by decide⟩,
    c4_should_review_file_spec.2.2.1 (" , ").data [] (by decide)⟩

/-! ## C9 -/

/-- C9: exactly one review, with event type `COMMENT` and carrying the
full inline batch plus the aggregate body, is submitted iff there is at
least one inline comment, general comment or skipped file; otherwise
nothing is submitted. -/
theorem c9_create_review_spec :
    (∀ draft general skipped reviewed,
        (create_review draft general skipped reviewed).isSome = true ↔
          (draft ≠ [] ∨ general ≠ [] ∨ skipped ≠ []))
  ∧ (∀ draft general skipped reviewed rv,
        create_review draft general skipped reviewed = some rv →
          rv.event = ("COMMENT").data ∧ rv.comments = draft ∧
            rv.body = review_body reviewed skipped draft general) := by
  constructor
  · intro draft general skipped reviewed
    by_cases h : draft ≠ [] ∨ general ≠ [] ∨ skipped ≠ []
    · simp [create_review, h]
    · simp [create_review, h]
  · intro draft general skipped reviewed rv h
    by_cases hc : draft ≠ [] ∨ general ≠ [] ∨ skipped ≠ []
    · simp only [create_review, if_pos hc, Option.some.injEq] at h
      subst h
      exact ⟨rfl, rfl, rfl⟩
    · simp [create_review, hc] at h

/-- Witness for C9: one general comment forces a submission, and the
submitted review's event is `COMMENT`. -/
theorem c9_create_review_spec_witness :
    (create_review [] [("c").data] [] []).isSome = true ∧
      (create_review [] [("c").data] [] []).map Review.event =
        some (("COMMENT").data) := by
  have h1 := (c9_create_review_spec.1 [] [("c").data] [] []).mpr
    (Or.inr (Or.inl (by simp)))
  refine ⟨h1, ?_⟩
  match hrv : create_review [] [("c").data] [] [] with
  | none => rw [hrv] at h1; simp at h1
  | some rv =>
    have h2 := (c9_create_review_spec.2 [] [("c").data] [] [] rv hrv).1
    simp [h2]

/-! ## C2: decimal rendering lemmas -/

theorem digitChar10_isDigit (n : Nat) (h : n < 10) :
    (digitChar10 n).isDigit = true := by
  interval_cases n <;> decide

theorem digitVal_digitChar10 (n : Nat) (h : n < 10) :
    digitVal (digitChar10 n) = n := by
  interval_cases n <;> decide

theorem natDigitsAux_congr :
    ∀ (f1 f2 n : Nat), n ≤ f1 → n ≤ f2 →
      natDigitsAux f1 n = natDigitsAux f2 n := by
  intro f1
  induction f1 with
  | zero =>
    intro f2 n h1 _
    have hn : n = 0 := by omega
    subst hn
    cases f2 with
    | zero => rfl
    | succ f2 => simp [natDigitsAux]
  | succ f1 ih =>
    intro f2 n h1 h2
    cases f2 with
    | zero =>
      have hn : n = 0 := by omega
      subst hn
      simp [natDigitsAux]
    | succ f2 =>
      by_cases h : n < 10
      · simp [natDigitsAux, h]
      · simp only [natDigitsAux, if_neg h]
        have hd : n / 10 ≤ f1 := by omega
        have hd2 : n / 10 ≤ f2 := by omega
        rw [ih f2 (n / 10) hd hd2]

theorem natDigits_eq (n : Nat) :
    natDigits n =
      if n < 10 then [digitChar10 n]
      else natDigits (n / 10) ++ [digitChar10 (n % 10)] := by
  by_cases h : n < 10
  · rw [if_pos h, natDigits]
    cases n with
    | zero => rfl
    | succ m => simp [natDigitsAux, h]
  · rw [if_neg h, natDigits, natDigits]
    cases n with
    | zero => omega
    | succ m =>
      simp only [natDigitsAux, if_neg h]
      rw [natDigitsAux_congr m ((m + 1) / 10) ((m + 1) / 10) (by omega) (by omega)]

theorem natDigits_all_digit :
    ∀ n, ∀ c ∈ natDigits n, c.isDigit = true := by
  intro n
  induction n using Nat.strong_induction_on with
  | _ n ih =>
    rw [natDigits_eq]
    by_cases h : n < 10
    · rw [if_pos h]
      intro c hc
      rw [List.mem_singleton] at hc
      subst hc
      exact digitChar10_isDigit n h
    · rw [if_neg h]
      intro c hc
      rcases List.mem_append.mp hc with hc | hc
      · exact ih (n / 10) (by omega) c hc
      · rw [List.mem_singleton] at hc
        subst hc
        exact digitChar10_isDigit (n % 10) (by omega)

theorem natDigits_ne_nil (n : Nat) : natDigits n ≠ [] := by
  rw [natDigits_eq]
  by_cases h : n < 10
  · simp [h]
  · simp [h]

theorem digitsToNat_append_one (l : List Char) (c : Char) :
    digitsToNat (l ++ [c]) = 10 * digitsToNat l + digitVal c := by
  simp [digitsToNat, List.foldl_append]

theorem digitsToNat_natDigits : ∀ n, digitsToNat (natDigits n) = n := by
  intro n
  induction n using Nat.strong_induction_on with
  | _ n ih =>
    rw [natDigits_eq]
    by_cases h : n < 10
    · rw [if_pos h]
      simp [digitsToNat, digitVal_digitChar10 n h]
    · rw [if_neg h, digitsToNat_append_one, ih (n / 10) (by omega),
        digitVal_digitChar10 (n % 10) (by omega)]
      omega

/-! ## C2: header parsing lemmas -/

theorem span_all_append (p : Char → Bool) :
    ∀ (l r : List Char), (∀ c ∈ l, p c = true) →
      (∀ c, r.head? = some c → p c = false) →
      (l ++ r).span p = (l, r) := by
  intro l
  induction l with
  | nil =>
    intro r _ hr
    rw [List.nil_append, List.span_eq_take_drop]
    cases r with
    | nil => rfl
    | cons c r2 =>
      have hc := hr c rfl
      simp [List.takeWhile_cons, List.dropWhile_cons, hc]
  | cons a l ih =>
    intro r hl hr
    have ha : p a = true := hl a (List.mem_cons_self a l)
    have h2 := ih r (fun c hc => hl c (List.mem_cons_of_mem a hc)) hr
    rw [List.span_eq_take_drop] at h2 ⊢
    rw [List.cons_append]
    simp only [List.takeWhile_cons, List.dropWhile_cons, ha, if_true]
    rw [Prod.mk.injEq] at h2 ⊢
    exact ⟨by rw [h2.1], h2.2⟩

theorem isDigit_ne_marker (c : Char) (h : c.isDigit = true) :
    c ≠ ',' ∧ c ≠ ' ' ∧ c ≠ '\n' ∧ c ≠ '@' := by
  refine ⟨?_, ?_, ?_, ?_⟩ <;> (intro he; subst he; simp [Char.isDigit] at h)


theorem span_digits_append (n : Nat) (r : List Char) (c : Char)
    (hr : r.head? = some c) (hc : c.isDigit = false) :
    (natDigits n ++ r).span Char.isDigit = (natDigits n, r) :=
  span_all_append Char.isDigit (natDigits n) r (natDigits_all_digit n)
    (fun d hd => by rw [hr, Option.some.injEq] at hd; rw [hd] at hc; exact hc)

theorem list_isEmpty_false (l : List Char) (h : l ≠ []) : l.isEmpty = false := by
  cases l with
  | nil => exact absurd rfl h
  | cons a l => rfl

theorem matchHeaderAt_renderHeader (h : Hunk) :
    matchHeaderAt (renderHeader h) = some h.newStart := by
  have h1 := span_digits_append h.oldStart
    (',' :: (natDigits h.oldLen ++
      (' ' :: '+' :: (natDigits h.newStart ++
        (',' :: (natDigits h.newLen ++ [' ', '@', '@']))))))
    ',' rfl (by decide)
  have h2 := span_digits_append h.oldLen
    (' ' :: '+' :: (natDigits h.newStart ++
      (',' :: (natDigits h.newLen ++ [' ', '@', '@']))))
    ' ' rfl (by decide)
  have h3 := span_digits_append h.newStart
    (',' :: (natDigits h.newLen ++ [' ', '@', '@'])) ',' rfl (by decide)
  have hstep : matchHeaderAt (renderHeader h) = headerTail
      (natDigits h.oldStart ++
        (',' :: (natDigits h.oldLen ++
          (' ' :: '+' :: (natDigits h.newStart ++
            (',' :: (natDigits h.newLen ++ [' ', '@', '@']))))))) := by
    simp [renderHeader, matchHeaderAt]
  rw [hstep]
  simp only [headerTail, h1, h2, h3,
    list_isEmpty_false (natDigits h.oldStart) (natDigits_ne_nil h.oldStart),
    list_isEmpty_false (natDigits h.newStart) (natDigits_ne_nil h.newStart)]
  simp [digitsToNat_natDigits]

theorem searchHeader_renderHeader (h : Hunk) :
    searchHeader (renderHeader h) = some h.newStart := by
  have hm := matchHeaderAt_renderHeader h
  have hcs : renderHeader h = '@' :: ('@' :: ' ' :: '-' ::
      (natDigits h.oldStart ++ ',' :: (natDigits h.oldLen ++
        ' ' :: '+' :: (natDigits h.newStart ++ ',' ::
          (natDigits h.newLen ++ [' ', '@', '@']))))) := by
    simp [renderHeader]
  rw [hcs] at hm ⊢
  rw [searchHeader, hm]

/-! ## C2: line splitting lemmas -/

theorem pySplit_no_sep (sep : Char) :
    ∀ l : List Char, sep ∉ l → pySplit sep l = [l] := by
  intro l
  induction l with
  | nil => intro _; rfl
  | cons c rest ih =>
    intro hmem
    have hc : ¬c = sep := fun he => hmem (he ▸ List.mem_cons_self c rest)
    have hr := ih (fun hm => hmem (List.mem_cons_of_mem c hm))
    rw [pySplit, if_neg hc, hr]

theorem pySplit_append_sep (sep : Char) :
    ∀ (l t : List Char), sep ∉ l →
      pySplit sep (l ++ sep :: t) = l :: pySplit sep t := by
  intro l
  induction l with
  | nil =>
    intro t _
    rw [List.nil_append, pySplit, if_pos rfl]
  | cons c rest ih =>
    intro t hmem
    have hc : ¬c = sep := fun he => hmem (he ▸ List.mem_cons_self c rest)
    have hr := ih t (fun hm => hmem (List.mem_cons_of_mem c hm))
    rw [List.cons_append, pySplit, if_neg hc, hr]

theorem pySplit_joinLines :
    ∀ lines : List (List Char), lines ≠ [] → (∀ l ∈ lines, '\n' ∉ l) →
      pySplit '\n' (joinLines lines) = lines := by
  intro lines
  induction lines with
  | nil => intro h _; exact absurd rfl h
  | cons l rest ih =>
    intro _ hnl
    cases rest with
    | nil =>
      rw [joinLines]
      exact pySplit_no_sep '\n' l (hnl l (List.mem_cons_self l []))
    | cons l2 rest2 =>
      rw [joinLines, pySplit_append_sep '\n' l (joinLines (l2 :: rest2))
        (hnl l (List.mem_cons_self l (l2 :: rest2)))]
      rw [ih (by simp) (fun x hx => hnl x (List.mem_cons_of_mem l hx))]

/-! ## C2: rendered lines are newline-free -/

theorem no_newline_natDigits (n : Nat) : '\n' ∉ natDigits n := by
  intro hmem
  have := natDigits_all_digit n '\n' hmem
  simp [Char.isDigit] at this

theorem no_newline_renderHeader (h : Hunk) : '\n' ∉ renderHeader h := by
  intro hmem
  have h1 := no_newline_natDigits h.oldStart
  have h2 := no_newline_natDigits h.oldLen
  have h3 := no_newline_natDigits h.newStart
  have h4 := no_newline_natDigits h.newLen
  simp [renderHeader, h1, h2, h3, h4] at hmem

/-! ## C2: folding rendered hunks -/

theorem renderBody_take_two (dl : DiffLine) :
    (renderBody dl).take 2 ≠ ['@', '@'] := by
  obtain ⟨tag, text⟩ := dl
  cases tag <;> simp [renderBody, tagChar]

theorem calcStep_in_hunk_body (s : CalcState) (line : List Char)
    (h2 : line.take 2 ≠ ['@', '@']) (hh : s.in_hunk = true) :
    calcStep s line = bodyStep s line := by
  rw [calcStep, if_neg h2, if_neg (by simp [hh])]

theorem bodyStep_del (s : CalcState) (line : List Char)
    (h : line.take 1 = ['-']) :
    bodyStep s line = { s with position := s.position + 1 } := by
  simp only [bodyStep, if_pos h]

theorem bodyStep_keep (s : CalcState) (line : List Char)
    (h : line.take 1 ≠ ['-']) :
    bodyStep s line =
      { s with
          position := s.position + 1
          positions := dictInsert s.positions s.current_line (s.position + 1)
          current_line := s.current_line + 1 } := by
  simp only [bodyStep, if_neg h]

theorem renderBody_take_one_del (dl : DiffLine) (h : dl.tag = DiffTag.del) :
    (renderBody dl).take 1 = ['-'] := by
  obtain ⟨tag, text⟩ := dl
  subst h
  simp [renderBody, tagChar]

theorem renderBody_take_one_keep (dl : DiffLine) (h : dl.tag ≠ DiffTag.del) :
    (renderBody dl).take 1 ≠ ['-'] := by
  obtain ⟨tag, text⟩ := dl
  cases tag <;> simp_all [renderBody, tagChar]

theorem nonDel_cons_del (dl : DiffLine) (body : List DiffLine)
    (h : dl.tag = DiffTag.del) : nonDel (dl :: body) = nonDel body := by
  simp [nonDel, List.filter_cons, h]

theorem nonDel_cons_keep (dl : DiffLine) (body : List DiffLine)
    (h : dl.tag ≠ DiffTag.del) : nonDel (dl :: body) = nonDel body + 1 := by
  simp [nonDel, List.filter_cons, h]

theorem foldBody_spec :
    ∀ (body : List DiffLine) (s : CalcState), s.in_hunk = true →
      ((body.map renderBody).foldl calcStep s).in_hunk = true ∧
      ((body.map renderBody).foldl calcStep s).current_line =
        s.current_line + (nonDel body : Int) ∧
      (∀ k ∈ keysOf ((body.map renderBody).foldl calcStep s).positions,
        k ∈ keysOf s.positions ∨
          (s.current_line ≤ k ∧ k < s.current_line + (nonDel body : Int))) := by
  intro body
  induction body with
  | nil =>
    intro s hh
    refine ⟨hh, by simp [nonDel], ?_⟩
    intro k hk
    exact Or.inl hk
  | cons dl body ih =>
    intro s hh
    rw [List.map_cons, List.foldl_cons,
      calcStep_in_hunk_body s (renderBody dl) (renderBody_take_two dl) hh]
    by_cases hdel : dl.tag = DiffTag.del
    · rw [bodyStep_del s (renderBody dl) (renderBody_take_one_del dl hdel),
        nonDel_cons_del dl body hdel]
      exact ih { s with position := s.position + 1 } hh
    · rw [bodyStep_keep s (renderBody dl) (renderBody_take_one_keep dl hdel),
        nonDel_cons_keep dl body hdel]
      obtain ⟨ih1, ih2, ih3⟩ := ih
        { s with
            position := s.position + 1
            positions := dictInsert s.positions s.current_line (s.position + 1)
            current_line := s.current_line + 1 } hh
      dsimp only at ih2 ih3
      refine ⟨ih1, ?_, ?_⟩
      · rw [ih2]
        push_cast
        ring
      · intro k hk
        rcases ih3 k hk with hk2 | hk2
        · rcases (mem_keysOf_dictInsert s.positions s.current_line k
            (s.position + 1)).mp hk2 with hk3 | hk3
          · right
            subst hk3
            constructor
            · exact le_refl _
            · have : (0 : Int) ≤ (nonDel body : Int) := Int.natCast_nonneg _
              omega
          · exact Or.inl hk3
        · right
          push_cast
          omega

theorem renderHeader_take_two (h : Hunk) :
    (renderHeader h).take 2 = ['@', '@'] := by
  simp [renderHeader]

theorem foldHunk_spec (h : Hunk) (s : CalcState) :
    ((renderHunkLines h).foldl calcStep s).in_hunk = true ∧
    (∀ k ∈ keysOf ((renderHunkLines h).foldl calcStep s).positions,
      k ∈ keysOf s.positions ∨
        ((h.newStart : Int) ≤ k ∧
          k < (h.newStart : Int) + (nonDel h.body : Int))) := by
  have hstep : calcStep s (renderHeader h) =
      { s with
          in_hunk := true
          current_line := (h.newStart : Int)
          position := s.position + 1 } := by
    rw [calcStep, if_pos (renderHeader_take_two h), searchHeader_renderHeader h]
  rw [renderHunkLines, List.foldl_cons, hstep]
  obtain ⟨f1, f2, f3⟩ := foldBody_spec h.body
    { s with
        in_hunk := true
        current_line := (h.newStart : Int)
        position := s.position + 1 } rfl
  refine ⟨f1, ?_⟩
  intro k hk
  exact f3 k hk

theorem foldPatch_spec :
    ∀ (hunks : List Hunk) (s : CalcState),
      ∀ k ∈ keysOf (((hunks.map renderHunkLines).flatten).foldl calcStep s).positions,
        k ∈ keysOf s.positions ∨
          ∃ h ∈ hunks, (h.newStart : Int) ≤ k ∧
            k < (h.newStart : Int) + (nonDel h.body : Int) := by
  intro hunks
  induction hunks with
  | nil =>
    intro s k hk
    exact Or.inl hk
  | cons h hs ih =>
    intro s k hk
    rw [List.map_cons, List.flatten_cons, List.foldl_append] at hk
    rcases ih ((renderHunkLines h).foldl calcStep s) k hk with hk2 | hk2
    · rcases (foldHunk_spec h s).2 k hk2 with hk3 | hk3
      · exact Or.inl hk3
      · exact Or.inr ⟨h, List.mem_cons_self h hs, hk3⟩
    · obtain ⟨h2, hmem, hrange⟩ := hk2
      exact Or.inr ⟨h2, List.mem_cons_of_mem h hmem, hrange⟩

theorem no_newline_renderBody (dl : DiffLine) (h : '\n' ∉ dl.text) :
    '\n' ∉ renderBody dl := by
  intro hm
  rw [renderBody] at hm
  rcases List.mem_cons.mp hm with he | hm2
  · obtain ⟨tag, text⟩ := dl
    cases tag <;> simp [tagChar] at he
  · exact h hm2

/-- C2: for every valid unified-diff patch, every key of
`calculate_line_positions` falls in some hunk's new-file line range
`[newStart, newStart + newLen)`, i.e. is a line number present in the new
version of the file; and a line beginning with the `-` deletion marker
never receives a map entry and does not advance the target-file line
counter. -/
theorem c2_keys_new_file (hunks : List Hunk) (hv : ValidPatch hunks) :
    (∀ k ∈ keysOf (calculate_line_positions (renderPatch hunks)),
        ∃ h ∈ hunks, (h.newStart : Int) ≤ k ∧
          k < (h.newStart : Int) + (h.newLen : Int))
  ∧ (∀ (s : CalcState) (line : List Char),
        line.take 1 = ['-'] → s.in_hunk = true →
        (calcStep s line).positions = s.positions ∧
          (calcStep s line).current_line = s.current_line) := by
  obtain ⟨hv1, hv2⟩ := hv
  constructor
  · cases hunks with
    | nil =>
      intro k hk
      rw [show calculate_line_positions (renderPatch []) = [] from rfl] at hk
      simp [keysOf] at hk
    | cons h0 hs =>
      intro k hk
      have hlines_ne : ((h0 :: hs).map renderHunkLines).flatten ≠ [] := by
        simp [renderHunkLines]
      have hnl : ∀ l ∈ ((h0 :: hs).map renderHunkLines).flatten, '\n' ∉ l := by
        intro l hl
        rw [List.mem_flatten] at hl
        obtain ⟨ls, hls, hl2⟩ := hl
        rw [List.mem_map] at hls
        obtain ⟨h, hh, rfl⟩ := hls
        rw [renderHunkLines] at hl2
        rcases List.mem_cons.mp hl2 with rfl | hl3
        · exact no_newline_renderHeader h
        · rw [List.mem_map] at hl3
          obtain ⟨dl, hdl, rfl⟩ := hl3
          exact no_newline_renderBody dl (hv1 h hh dl hdl)
      have hsplit : pySplit '\n' (renderPatch (h0 :: hs)) =
          ((h0 :: hs).map renderHunkLines).flatten := by
        rw [renderPatch]
        exact pySplit_joinLines _ hlines_ne hnl
      rw [calculate_line_positions, hsplit] at hk
      rcases foldPatch_spec (h0 :: hs) calcInit k hk with hk2 | hk2
      · simp [calcInit, keysOf] at hk2
      · obtain ⟨h, hm, hr⟩ := hk2
        refine ⟨h, hm, hr.1, ?_⟩
        rw [hv2 h hm]
        exact hr.2
  · intro s line h1 hh
    have h2 : line.take 2 ≠ ['@', '@'] := by
      cases line with
      | nil => simp at h1
      | cons c rest =>
        have hc : c = '-' := by simpa using h1
        subst hc
        simp
    rw [calcStep_in_hunk_body s line h2 hh, bodyStep_del s line h1]
    exact ⟨rfl, rfl⟩

/-- Witness for C2: the scenario-A patch as a structured hunk (key 2 lies
in its new-file range), and a concrete deletion line processed mid-hunk
leaving the map and the line counter untouched. -/
theorem c2_keys_new_file_witness :
    (∃ h ∈ [Hunk.mk 1 3 1 4
        [⟨DiffTag.ctx, ("line1").data⟩, ⟨DiffTag.add, ("line2").data⟩,
         ⟨DiffTag.ctx, ("line3").data⟩, ⟨DiffTag.ctx, ("line4").data⟩]],
      (h.newStart : Int) ≤ 2 ∧ (2 : Int) < (h.newStart : Int) + (h.newLen : Int)) ∧
    (calcStep ⟨[], 3, 5, true⟩ (("-gone").data)).positions = [] ∧
    (calcStep ⟨[], 3, 5, true⟩ (("-gone").data)).current_line = 5 := by
  have h := c2_keys_new_file [Hunk.mk 1 3 1 4
    [⟨DiffTag.ctx, ("line1").data⟩, ⟨DiffTag.add, ("line2").data⟩,
     ⟨DiffTag.ctx, ("line3").data⟩, ⟨DiffTag.ctx, ("line4").data⟩]]
    (by constructor <;> decide)
  have hdel := h.2 ⟨[], 3, 5, true⟩ (("-gone").data) (by decide) rfl
  exact ⟨h.1 2 (by decide), hdel.1, hdel.2⟩
